import Mathlib

/-!
# virtctl migrate: node-selector parsing and submission

A shallow embedding of `pkg/virtctl/vm/migrate.go` (`convertSliceToMap`,
`migrateRun`) together with the constraint merger and the migration
lifecycle that the specification describes.

Go strings are sequences of bytes; the only byte the code inspects is the
separator `=` (0x3D), which never occurs inside a multi-byte UTF-8 sequence,
so a string is modelled as a list of characters.
-/

namespace Migrate

/-- A Go `string`. -/
abbrev GoString := List Char

/-- A Go `map[string]string`: an association list holding each key at most once.
The order of the entries carries no meaning; a map is observed through `GoMap.get`,
`GoMap.keys` and `GoMap.len`. -/
abbrev GoMap := List (GoString × GoString)

/-- The lookup `m[k]` together with its presence flag: `none` when the key is absent. -/
def GoMap.get : GoMap → GoString → Option GoString
  | [], _ => none
  | (k', v) :: rest, k => if k' = k then some v else GoMap.get rest k

/-- The assignment `m[k] = v`: replaces the value of an existing key, adds a new key. -/
def GoMap.set : GoMap → GoString → GoString → GoMap
  | [], k, v => [(k, v)]
  | (k', v') :: rest, k, v =>
    if k' = k then (k, v) :: rest else (k', v') :: GoMap.set rest k v

/-- The keys of a map. -/
def GoMap.keys (m : GoMap) : List GoString := m.map Prod.fst

/-- The built-in `len(m)`. -/
def GoMap.len (m : GoMap) : Nat := m.length

/-- The scan behind `strings.Split` for a one-byte separator: the part before the
first separator, and the parts after it. -/
def splitGo (sep : Char) : GoString → GoString × List GoString
  | [] => ([], [])
  | c :: cs =>
    let r := splitGo sep cs
    if c = sep then ([], r.1 :: r.2) else (c :: r.1, r.2)

/-- The standard library `strings.Split(s, sep)` for a one-byte separator: all
substrings of `s` separated by `sep`; one more part than there are separators. -/
def Split (s : GoString) (sep : Char) : List GoString :=
  (splitGo sep s).1 :: (splitGo sep s).2

/-- The message of `fmt.Errorf("invalid format for label: %s", item)`. -/
def invalidFormat (item : GoString) : GoString :=
  "invalid format for label: ".toList ++ item

/-- The `for _, item := range slice` loop of `convertSliceToMap`, from the map built so far.
The result is the pair `(map[string]string, error)`; `none` is `nil`. -/
def convertLoop : List GoString → GoMap → Option GoMap × Option GoString
  | [], mapResult => (some mapResult, none)
  | item :: rest, mapResult =>
    let parts := Split item '='
    if parts.length = 2 then
      convertLoop rest (mapResult.set (parts.getD 0 []) (parts.getD 1 []))
    else
      (none, some (invalidFormat item))

/-- Convert a slice of "key=value" strings to a map (`convertSliceToMap`). -/
def convertSliceToMap (slice : List GoString) : Option GoMap × Option GoString :=
  convertLoop slice []

/-- The entry `k=v` of a slice, for a pair `(k, v)`. -/
def entry (p : GoString × GoString) : GoString := p.1 ++ '=' :: p.2

/-- The assignments of the pairs, in order, onto a map. -/
def assignAll (m : GoMap) (kvs : List (GoString × GoString)) : GoMap :=
  kvs.foldl (fun acc p => acc.set p.1 p.2) m

/-! ## `migrateRun` -/

/-- The API type `v1.MigrateOptions`: the dry-run option list and the added node
selector, `none` being the unset (nil) map. -/
structure MigrateOptions where
  DryRun : List GoString
  AddedNodeSelector : Option GoMap
deriving DecidableEq, Repr

/-- One invocation of `virtClient.VirtualMachine(namespace).Migrate(ctx, name, options)`. -/
structure MigrateCall where
  ns : GoString
  name : GoString
  options : MigrateOptions
deriving DecidableEq, Repr

/-- The collaborators of `migrateRun` declared outside `migrate.go`: the outcome of
`clientconfig.ClientAndNamespaceFromContext` (the namespace, or an error), the helper
`setDryRunOption`, and the error (if any) the client answers to a `Migrate` request. -/
structure Env where
  ClientAndNamespaceFromContext : Except GoString GoString
  setDryRunOption : Bool → List GoString
  Migrate : GoString → GoString → MigrateOptions → Option GoString

/-- The receiver of `migrateRun`. -/
structure Command where
  command : GoString
deriving DecidableEq, Repr

/-- What one run of `migrateRun` does: the error it returns (`none` is `nil`), the
`Migrate` requests it sent to the client, in order, and what it printed. -/
structure RunResult where
  err : Option GoString
  calls : List MigrateCall
  stdout : GoString
deriving DecidableEq, Repr

/-- Lines 75 to 82 of `migrateRun`: send the request, wrap its error or report success. -/
def sendMigrate (o : Command) (env : Env) (ns vmiName : GoString)
    (options : MigrateOptions) : RunResult :=
  match env.Migrate ns vmiName options with
  | some err =>
    ⟨some ("Error migrating VirtualMachine ".toList ++ err), [⟨ns, vmiName, options⟩], []⟩
  | none =>
    ⟨none, [⟨ns, vmiName, options⟩],
      "VM ".toList ++ vmiName ++ " was scheduled to ".toList ++ o.command ++ "\n".toList⟩

/-- The method `migrateRun`, with the package variables `dryRun` and `nodeSlectorLabels`
(`none` is the nil slice of an absent flag) as arguments. The result `none` is the run-time
failure of `args[0]` on an empty argument list. -/
def migrateRun (o : Command) (env : Env) (dryRun : Bool)
    (nodeSlectorLabels : Option (List GoString)) (args : List GoString) : Option RunResult :=
  match args with
  | [] => none
  | vmiName :: _ =>
    match env.ClientAndNamespaceFromContext with
    | .error err => some ⟨some err, [], []⟩
    | .ok ns =>
      let dryRunOption := env.setDryRunOption dryRun
      let options : MigrateOptions := ⟨dryRunOption, none⟩
      match nodeSlectorLabels with
      | some labels =>
        match convertSliceToMap labels with
        | (_, some err) => some ⟨some err, [], []⟩
        | (addedNodeSelector, none) =>
          some (sendMigrate o env ns vmiName ⟨options.DryRun, addedNodeSelector⟩)
      | none => some (sendMigrate o env ns vmiName options)

/-! ## The constraint merger and the migration lifecycle -/

/-- Modelled from the spec: the Constraint Merger `merge(base, addition)` of section 4.1,
whose code (the migration controller) is not among the sources. All pairs of `base` are
in the result unchanged; a pair of `addition` whose key is not present in `base` is added;
a pair of `addition` whose key is present in `base` is silently dropped. -/
def merge (base addition : GoMap) : GoMap :=
  addition.foldl
    (fun result kv => if (base.get kv.1).isSome then result else result.set kv.1 kv.2) base

/-- Modelled from the spec: the `TargetPlacement` of section 3, the merge of the workload's
placement with the request's added placement, an absent addition counting as empty. -/
def targetPlacement (base : GoMap) (added : Option GoMap) : GoMap :=
  merge base (added.getD [])

/-- Modelled from the spec: the phases of section 4.2. -/
inductive Phase where
  | Pending | Scheduling | Scheduled | PreparingTarget | TargetReady
  | TransferInProgress | Succeeded | Failed
deriving DecidableEq, Repr

/-- Modelled from the spec: `Succeeded` and `Failed` are the terminal phases. -/
def Phase.terminal : Phase → Bool
  | .Succeeded => true
  | .Failed => true
  | _ => false

/-- Modelled from the spec: the `Workload` of section 3. -/
structure Workload where
  name : GoString
  placement : GoMap
  currentNode : GoString
deriving DecidableEq, Repr

/-- Modelled from the spec: the `MigrationRequest` of section 3, with the ephemeral
target context it owns (its placement map and, once placed, its node). -/
structure MigrationRequest where
  addedPlacement : Option GoMap
  phase : Phase
  failureReason : Option GoString
  target : Option GoMap
  targetNode : Option GoString
deriving DecidableEq, Repr

/-- Modelled from the spec: one workload and its latest migration request, if any. -/
structure System where
  workload : Workload
  request : Option MigrationRequest
deriving DecidableEq, Repr

/-- Modelled from the spec: what the lifecycle reacts to (sections 4.2 and 4.3). -/
inductive Event where
  | submit (addedPlacement : Option GoMap) (dryRun : Bool)
  | admitted
  | placed (node : GoString)
  | schedulingTimeout
  | preparing
  | targetReady
  | transferStarted
  | transferComplete
  | cancel
  | teardown
  | transferError (reason : GoString)
deriving DecidableEq, Repr

/-- Modelled from the spec: the move to `Failed`, which discards the target context. -/
def MigrationRequest.fail (r : MigrationRequest) (reason : GoString) : MigrationRequest :=
  ⟨r.addedPlacement, .Failed, some reason, none, none⟩

/-- Modelled from the spec: a request enters the given phase, keeping its target. -/
def MigrationRequest.enter (r : MigrationRequest) (p : Phase) : MigrationRequest :=
  ⟨r.addedPlacement, p, r.failureReason, r.target, r.targetNode⟩

/-- Modelled from the spec: the transition rules of section 4.2 and the gateway of
section 4.3. A submission is dropped while a non-terminal request exists (conflict) and
in dry-run mode; an event that has no rule in the current phase changes nothing. -/
def step (s : System) : Event → System
  | .submit added dryRun =>
    match s.request with
    | some r =>
      if r.phase.terminal && !dryRun then
        ⟨s.workload, some ⟨added, .Pending, none, none, none⟩⟩
      else s
    | none => if dryRun then s else ⟨s.workload, some ⟨added, .Pending, none, none, none⟩⟩
  | ev =>
    match s.request with
    | none => s
    | some r =>
      match r.phase, ev with
      | .Pending, .admitted =>
        ⟨s.workload, some ⟨r.addedPlacement, .Scheduling, none,
          some (targetPlacement s.workload.placement r.addedPlacement), none⟩⟩
      | .Scheduling, .placed node =>
        ⟨s.workload, some ⟨r.addedPlacement, .Scheduled, none, r.target, some node⟩⟩
      | .Scheduling, .schedulingTimeout =>
        ⟨s.workload, some (r.fail "scheduling timeout".toList)⟩
      | .Scheduled, .preparing => ⟨s.workload, some (r.enter .PreparingTarget)⟩
      | .PreparingTarget, .targetReady => ⟨s.workload, some (r.enter .TargetReady)⟩
      | .TargetReady, .transferStarted => ⟨s.workload, some (r.enter .TransferInProgress)⟩
      | .TransferInProgress, .transferComplete =>
        ⟨⟨s.workload.name, s.workload.placement, r.targetNode.getD s.workload.currentNode⟩,
          some ⟨r.addedPlacement, .Succeeded, none, none, none⟩⟩
      | p, .cancel =>
        if p.terminal then s else ⟨s.workload, some (r.fail "cancelled".toList)⟩
      | p, .teardown =>
        if p.terminal then s else ⟨s.workload, some (r.fail "target lost".toList)⟩
      | p, .transferError reason =>
        if p.terminal then s else ⟨s.workload, some (r.fail reason)⟩
      | _, _ => s

/-- Modelled from the spec: the lifecycle run over a sequence of events. -/
def run (s : System) (events : List Event) : System :=
  events.foldl step s

/-- Modelled from the spec: the target context of a request, while it exists, carries the
merge of the workload's placement with the request's addition, and a terminal request has
no target context. -/
def targetInvariant (placement : GoMap) (s : System) : Prop :=
  ∀ r, s.request = some r →
    (r.phase.terminal = true → r.target = none) ∧
    (∀ t, r.target = some t → t = targetPlacement placement r.addedPlacement)

/-- The workload of the end-to-end scenario: placement `zone=vmi`, residing on node A. -/
def scenarioWorkload : Workload :=
  ⟨"vmi".toList, [("zone".toList, "vmi".toList)], "A".toList⟩

/-- The addition of the end-to-end scenario: `zone=migration`, `team=migration`. -/
def scenarioAddition : GoMap :=
  [("zone".toList, "migration".toList), ("team".toList, "migration".toList)]

/-- A submission with the scenario's addition that is placed on node B and runs to the end
of the transfer. -/
def scenarioSuccess : List Event :=
  [.submit (some scenarioAddition) false, .admitted, .placed "B".toList, .preparing,
    .targetReady, .transferStarted, .transferComplete]

/-- A submission with the scenario's addition for which no node is found in time. -/
def scenarioTimeout : List Event :=
  [.submit (some scenarioAddition) false, .admitted, .schedulingTimeout]

/-! ## Facts about `Split` -/

theorem splitGo_snd_length (sep : Char) (s : GoString) :
    (splitGo sep s).2.length = s.count sep := by
  induction s with
  | nil => simp [splitGo]
  | cons c cs ih =>
    by_cases h : c = sep
    · subst h
      simp [splitGo, ih]
    · have h' : ¬ (c == sep) = true := by simpa using h
      simp [splitGo, h, ih, List.count_cons, h']

theorem Split_length (s : GoString) (sep : Char) :
    (Split s sep).length = s.count sep + 1 := by
  simp [Split, splitGo_snd_length]

theorem splitGo_of_not_mem (sep : Char) (s : GoString) (h : sep ∉ s) :
    splitGo sep s = (s, []) := by
  induction s with
  | nil => simp [splitGo]
  | cons c cs ih =>
    have hc : ¬ c = sep := fun e => h (by simp [e])
    have hcs : sep ∉ cs := fun e => h (by simp [e])
    simp [splitGo, hc, ih hcs]

theorem splitGo_append (sep : Char) (k v : GoString) (h : sep ∉ k) :
    splitGo sep (k ++ sep :: v) = (k, Split v sep) := by
  induction k with
  | nil => simp [splitGo, Split]
  | cons c cs ih =>
    have hc : ¬ c = sep := fun e => h (by simp [e])
    have hcs : sep ∉ cs := fun e => h (by simp [e])
    simp [splitGo, hc, ih hcs]

theorem splitGo_cases (sep : Char) (s : GoString) :
    (sep ∉ s ∧ splitGo sep s = (s, [])) ∨
    (∃ k t, sep ∉ k ∧ s = k ++ sep :: t ∧ splitGo sep s = (k, Split t sep)) := by
  induction s with
  | nil => left; simp [splitGo]
  | cons c cs ih =>
    by_cases h : c = sep
    · subst h
      right
      exact ⟨[], cs, by simp, by simp, by simp [splitGo, Split]⟩
    · rcases ih with ⟨hn, he⟩ | ⟨k, t, hk, hs, he⟩
      · left
        refine ⟨?_, ?_⟩
        · simp [hn, Ne.symm h]
        · simp [splitGo, h, he]
      · right
        refine ⟨c :: k, t, ?_, ?_, ?_⟩
        · simp [hk, Ne.symm h]
        · simp [hs]
        · simp [splitGo, h, he]

theorem Split_of_not_mem (sep : Char) (s : GoString) (h : sep ∉ s) :
    Split s sep = [s] := by
  simp [Split, splitGo_of_not_mem sep s h]

theorem Split_pair (sep : Char) (k v : GoString) (hk : sep ∉ k) (hv : sep ∉ v) :
    Split (k ++ sep :: v) sep = [k, v] := by
  simp [Split, splitGo_append sep k v hk, splitGo_of_not_mem sep v hv]

theorem Split_length_two (sep : Char) (s : GoString) (h : (Split s sep).length = 2) :
    ∃ k v, sep ∉ k ∧ sep ∉ v ∧ s = k ++ sep :: v ∧ Split s sep = [k, v] := by
  rcases splitGo_cases sep s with ⟨_, he⟩ | ⟨k, t, hk, hs, he⟩
  · simp [Split, he] at h
  · have ht : sep ∉ t := by
      rw [Split_length, hs] at h
      simp at h
      have : t.count sep = 0 := by omega
      exact List.count_eq_zero.mp this
    refine ⟨k, t, hk, ht, hs, ?_⟩
    rw [hs]
    exact Split_pair sep k t hk ht

/-! ## Facts about maps -/

theorem GoMap.get_set (m : GoMap) (k v k' : GoString) :
    (m.set k v).get k' = if k = k' then some v else m.get k' := by
  induction m with
  | nil => simp [GoMap.set, GoMap.get]
  | cons p rest ih =>
    obtain ⟨a, b⟩ := p
    by_cases h : a = k
    · subst h
      by_cases h' : a = k' <;> simp [GoMap.set, GoMap.get, h']
    · by_cases h' : a = k'
      · subst h'
        have hk : ¬ k = a := fun e => h e.symm
        simp [GoMap.set, GoMap.get, h, hk]
      · simp [GoMap.set, GoMap.get, h, h', ih]

theorem GoMap.mem_keys_iff (m : GoMap) (k : GoString) :
    k ∈ m.keys ↔ (m.get k).isSome = true := by
  induction m with
  | nil => simp [GoMap.keys, GoMap.get]
  | cons p rest ih =>
    obtain ⟨a, b⟩ := p
    by_cases h : a = k
    · simp [GoMap.keys, GoMap.get, h]
    · have h' : ¬ k = a := fun e => h e.symm
      have ih' : k ∈ List.map Prod.fst rest ↔ (GoMap.get rest k).isSome = true := ih
      simp only [GoMap.keys, GoMap.get, h, List.map_cons, List.mem_cons, h', false_or,
        if_false]
      exact ih'

theorem GoMap.mem_keys_set (m : GoMap) (k v k' : GoString) :
    k' ∈ (m.set k v).keys ↔ k' = k ∨ k' ∈ m.keys := by
  rw [GoMap.mem_keys_iff, GoMap.mem_keys_iff, GoMap.get_set]
  by_cases h : k = k'
  · simp [h]
  · have h' : ¬ k' = k := fun e => h e.symm
    simp [h, h']

theorem GoMap.keys_nodup_set (m : GoMap) (k v : GoString) (h : m.keys.Nodup) :
    (m.set k v).keys.Nodup := by
  induction m with
  | nil => simp [GoMap.set, GoMap.keys]
  | cons p rest ih =>
    obtain ⟨a, b⟩ := p
    have hn : a ∉ GoMap.keys rest ∧ (GoMap.keys rest).Nodup := by
      simpa [GoMap.keys] using h
    by_cases hk : a = k
    · subst hk
      simpa [GoMap.set, GoMap.keys] using h
    · have hmem : a ∉ GoMap.keys (GoMap.set rest k v) := by
        rw [GoMap.mem_keys_set]
        simp [hk, hn.1]
      have := ih hn.2
      simp only [GoMap.set, hk, if_false, GoMap.keys, List.map_cons, List.nodup_cons]
      exact ⟨hmem, this⟩

theorem assignAll_get_of_not_mem (kvs : List (GoString × GoString)) (m : GoMap)
    (k : GoString) (h : k ∉ kvs.map Prod.fst) : (assignAll m kvs).get k = m.get k := by
  induction kvs generalizing m with
  | nil => rfl
  | cons p rest ih =>
    have h1 : ¬ p.1 = k := fun e => h (by simp [e])
    have h2 : k ∉ rest.map Prod.fst := fun e => h (by simp at e ⊢; exact Or.inr e)
    show (assignAll (m.set p.1 p.2) rest).get k = m.get k
    rw [ih _ h2, GoMap.get_set]
    simp [h1]

theorem assignAll_append (m : GoMap) (xs ys : List (GoString × GoString)) :
    assignAll m (xs ++ ys) = assignAll (assignAll m xs) ys := by
  simp [assignAll, List.foldl_append]

theorem assignAll_get_last (m : GoMap) (pre post : List (GoString × GoString))
    (k v : GoString) (h : k ∉ post.map Prod.fst) :
    (assignAll m (pre ++ (k, v) :: post)).get k = some v := by
  rw [assignAll_append]
  show (assignAll ((assignAll m pre).set k v) post).get k = some v
  rw [assignAll_get_of_not_mem post _ k h, GoMap.get_set]
  simp

theorem assignAll_mem_keys (kvs : List (GoString × GoString)) (m : GoMap) (k : GoString) :
    k ∈ (assignAll m kvs).keys ↔ k ∈ m.keys ∨ k ∈ kvs.map Prod.fst := by
  induction kvs generalizing m with
  | nil => simp [assignAll]
  | cons p rest ih =>
    show k ∈ (assignAll (m.set p.1 p.2) rest).keys ↔ _
    rw [ih, GoMap.mem_keys_set]
    simp only [List.map_cons, List.mem_cons]
    tauto

theorem assignAll_keys_nodup (kvs : List (GoString × GoString)) (m : GoMap)
    (h : m.keys.Nodup) : (assignAll m kvs).keys.Nodup := by
  induction kvs generalizing m with
  | nil => simpa [assignAll] using h
  | cons p rest ih => exact ih _ (GoMap.keys_nodup_set m p.1 p.2 h)

theorem assignAll_get_mem (kvs : List (GoString × GoString)) (m : GoMap) (k v : GoString)
    (h : (assignAll m kvs).get k = some v) : (k, v) ∈ kvs ∨ m.get k = some v := by
  induction kvs generalizing m with
  | nil => exact Or.inr h
  | cons p rest ih =>
    have h' : (assignAll (m.set p.1 p.2) rest).get k = some v := h
    rcases ih _ h' with hm | hg
    · exact Or.inl (List.mem_cons_of_mem _ hm)
    · rw [GoMap.get_set] at hg
      by_cases hk : p.1 = k
      · simp [hk] at hg
        left
        have : p = (k, v) := Prod.ext hk hg
        simp [this]
      · simp [hk] at hg
        exact Or.inr hg

/-! ## Facts about the conversion loop -/

theorem convertLoop_cons_ok (item : GoString) (rest : List GoString) (m : GoMap)
    (k v : GoString) (h : Split item '=' = [k, v]) :
    convertLoop (item :: rest) m = convertLoop rest (m.set k v) := by
  simp [convertLoop, h]

theorem convertLoop_cons_bad (item : GoString) (rest : List GoString) (m : GoMap)
    (h : (Split item '=').length ≠ 2) :
    convertLoop (item :: rest) m = (none, some (invalidFormat item)) := by
  simp [convertLoop, h]

theorem convertLoop_entries (kvs : List (GoString × GoString)) (m : GoMap)
    (h : ∀ p ∈ kvs, '=' ∉ p.1 ∧ '=' ∉ p.2) :
    convertLoop (kvs.map entry) m = (some (assignAll m kvs), none) := by
  induction kvs generalizing m with
  | nil => rfl
  | cons p rest ih =>
    have hp := h p (by simp)
    have hs : Split (entry p) '=' = [p.1, p.2] := Split_pair '=' p.1 p.2 hp.1 hp.2
    rw [List.map_cons, convertLoop_cons_ok _ _ _ _ _ hs]
    exact ih _ (fun q hq => h q (List.mem_cons_of_mem _ hq))

theorem convertLoop_success (slice : List GoString) (m m' : GoMap)
    (h : (convertLoop slice m).1 = some m') :
    ∃ kvs : List (GoString × GoString), slice = kvs.map entry ∧
      (∀ p ∈ kvs, '=' ∉ p.1 ∧ '=' ∉ p.2) ∧ m' = assignAll m kvs := by
  induction slice generalizing m with
  | nil =>
    refine ⟨[], rfl, by simp, ?_⟩
    simpa [convertLoop, assignAll] using h.symm
  | cons item rest ih =>
    by_cases hl : (Split item '=').length = 2
    · obtain ⟨k, v, hk, hv, hs, hsp⟩ := Split_length_two '=' item hl
      rw [convertLoop_cons_ok _ _ _ _ _ hsp] at h
      obtain ⟨kvs, e1, e2, e3⟩ := ih _ h
      refine ⟨(k, v) :: kvs, ?_, ?_, ?_⟩
      · simp [entry, hs, e1]
      · intro p hp
        rcases List.mem_cons.mp hp with e | e
        · subst e; exact ⟨hk, hv⟩
        · exact e2 p e
      · exact e3
    · rw [convertLoop_cons_bad _ _ _ hl] at h
      simp at h

theorem convertLoop_snd (slice : List GoString) (m : GoMap) :
    (convertLoop slice m).2 =
      (slice.find? (fun item => decide ((Split item '=').length ≠ 2))).map invalidFormat := by
  induction slice generalizing m with
  | nil => rfl
  | cons item rest ih =>
    by_cases hl : (Split item '=').length = 2
    · obtain ⟨k, v, _, _, _, hsp⟩ := Split_length_two '=' item hl
      rw [convertLoop_cons_ok _ _ _ _ _ hsp, ih]
      simp [List.find?_cons, hl]
    · rw [convertLoop_cons_bad _ _ _ hl]
      simp [List.find?_cons, hl]

theorem convertLoop_total (slice : List GoString) (m : GoMap) :
    (∃ m', convertLoop slice m = (some m', none)) ∨
    (∃ e, convertLoop slice m = (none, some e)) := by
  induction slice generalizing m with
  | nil => exact Or.inl ⟨m, rfl⟩
  | cons item rest ih =>
    by_cases hl : (Split item '=').length = 2
    · obtain ⟨k, v, _, _, _, hsp⟩ := Split_length_two '=' item hl
      rw [convertLoop_cons_ok _ _ _ _ _ hsp]
      exact ih _
    · rw [convertLoop_cons_bad _ _ _ hl]
      exact Or.inr ⟨_, rfl⟩

theorem count_entry (p : GoString × GoString) (h : '=' ∉ p.1 ∧ '=' ∉ p.2) :
    (entry p).count '=' = 1 := by
  have h1 : p.1.count '=' = 0 := List.count_eq_zero.mpr h.1
  have h2 : p.2.count '=' = 0 := List.count_eq_zero.mpr h.2
  simp [entry, List.count_append, List.count_cons, h1, h2]

theorem keys_length_eq (m : GoMap) (ks : List GoString) (hn : m.keys.Nodup)
    (hk : ∀ k, k ∈ m.keys ↔ k ∈ ks) : m.len = ks.dedup.length := by
  have hp : List.Perm m.keys ks.dedup :=
    (List.perm_ext_iff_of_nodup hn (List.nodup_dedup ks)).mpr
      (fun a => by rw [hk a, List.mem_dedup])
  have := hp.length_eq
  simpa [GoMap.len, GoMap.keys] using this

/-! ## `convertSliceToMap` -/

/-- C1 (counterexample): the entries "=v", "k=" and "=" are accepted; the call returns no
error and a map holding an empty key, an empty value, or both. -/
theorem convertSliceToMap_accepts_empty_parts :
    convertSliceToMap ["=v".toList, "k=".toList] =
        (some [([], "v".toList), ("k".toList, [])], none) ∧
    convertSliceToMap ["=".toList] = (some [([], [])], none) := by
  decide

/-- C1 (amended): whenever convertSliceToMap succeeds, every key and every value of the
returned map is a string without the separator (it may be empty), and the pair is an entry
key=value of the slice. -/
theorem convertSliceToMap_success_pairs (slice : List GoString) (m : GoMap)
    (h : convertSliceToMap slice = (some m, none)) (k v : GoString)
    (hkv : m.get k = some v) : '=' ∉ k ∧ '=' ∉ v ∧ entry (k, v) ∈ slice := by
  have h1 : (convertLoop slice []).1 = some m := by
    have := congrArg Prod.fst h
    simpa [convertSliceToMap] using this
  obtain ⟨kvs, e1, e2, e3⟩ := convertLoop_success slice [] m h1
  subst e3
  rcases assignAll_get_mem kvs [] k v hkv with hm | hg
  · exact ⟨(e2 _ hm).1, (e2 _ hm).2, by rw [e1]; exact List.mem_map_of_mem entry hm⟩
  · simp [GoMap.get] at hg

theorem convertSliceToMap_success_pairs_witness :
    '=' ∉ ([] : GoString) ∧ '=' ∉ "v".toList ∧
      entry ([], "v".toList) ∈ ["=v".toList, "k=".toList] :=
  convertSliceToMap_success_pairs ["=v".toList, "k=".toList]
    [([], "v".toList), ("k".toList, [])] (by decide) [] "v".toList (by decide)

/-- C2: a slice holding an entry without the separator is rejected with an error and a nil
map, wherever the entry stands and whatever surrounds it. -/
theorem convertSliceToMap_rejects_missing_separator (slice : List GoString)
    (item : GoString) (hmem : item ∈ slice) (hno : '=' ∉ item) :
    ∃ e, convertSliceToMap slice = (none, some e) := by
  rcases convertLoop_total slice [] with ⟨m, hm⟩ | he
  · exfalso
    obtain ⟨kvs, e1, _, _⟩ := convertLoop_success slice [] m (by rw [hm])
    rw [e1] at hmem
    obtain ⟨p, _, hp⟩ := List.mem_map.mp hmem
    apply hno
    rw [← hp]
    simp [entry]
  · exact he

theorem convertSliceToMap_rejects_missing_separator_witness :
    ∃ e, convertSliceToMap ["a=b".toList, "c".toList, "d=e".toList] = (none, some e) :=
  convertSliceToMap_rejects_missing_separator ["a=b".toList, "c".toList, "d=e".toList]
    "c".toList (by decide) (by decide)

/-- C3: on well-formed entries with pairwise distinct keys convertSliceToMap succeeds; the
returned map has exactly the given keys, each once, and binds every key to its value. The
empty slice gives the empty map and no error. -/
theorem convertSliceToMap_distinct_keys (kvs : List (GoString × GoString))
    (hwf : ∀ p ∈ kvs, '=' ∉ p.1 ∧ '=' ∉ p.2) (hd : (kvs.map Prod.fst).Nodup) :
    (∃ m : GoMap, convertSliceToMap (kvs.map entry) = (some m, none) ∧
      (∀ k, k ∈ m.keys ↔ k ∈ kvs.map Prod.fst) ∧
      (∀ p ∈ kvs, m.get p.1 = some p.2) ∧
      m.keys.Nodup ∧ m.len = kvs.length) ∧
    convertSliceToMap [] = (some [], none) := by
  refine ⟨⟨assignAll [] kvs, convertLoop_entries kvs [] hwf, ?_, ?_, ?_, ?_⟩, rfl⟩
  · intro k
    rw [assignAll_mem_keys]
    simp [GoMap.keys]
  · intro p hp
    obtain ⟨pre, post, e⟩ := List.append_of_mem hp
    have hnot : p.1 ∉ post.map Prod.fst := by
      rw [e] at hd
      simp only [List.map_append, List.map_cons] at hd
      have h2 := (List.nodup_append.mp hd).2.1
      exact (List.nodup_cons.mp h2).1
    have := assignAll_get_last [] pre post p.1 p.2 hnot
    rw [e]
    exact this
  · exact assignAll_keys_nodup kvs [] (by simp [GoMap.keys])
  · have hk : ∀ k, k ∈ (assignAll [] kvs).keys ↔ k ∈ kvs.map Prod.fst := by
      intro k
      rw [assignAll_mem_keys]
      simp [GoMap.keys]
    have := keys_length_eq (assignAll [] kvs) (kvs.map Prod.fst)
      (assignAll_keys_nodup kvs [] (by simp [GoMap.keys])) hk
    rw [this, List.Nodup.dedup hd, List.length_map]

theorem convertSliceToMap_distinct_keys_witness :
    (∃ m : GoMap,
      convertSliceToMap ([("a".toList, "1".toList), ("b".toList, "2".toList)].map entry) =
        (some m, none) ∧
      (∀ k, k ∈ m.keys ↔
        k ∈ [("a".toList, "1".toList), ("b".toList, "2".toList)].map Prod.fst) ∧
      (∀ p ∈ [("a".toList, "1".toList), ("b".toList, "2".toList)], m.get p.1 = some p.2) ∧
      m.keys.Nodup ∧
      m.len = [("a".toList, "1".toList), ("b".toList, "2".toList)].length) ∧
    convertSliceToMap [] = (some [], none) :=
  convertSliceToMap_distinct_keys [("a".toList, "1".toList), ("b".toList, "2".toList)]
    (by decide) (by decide)

theorem convertLoop_succeeds_iff (slice : List GoString) (m : GoMap) :
    (∃ m', convertLoop slice m = (some m', none)) ↔
      ∀ item ∈ slice, item.count '=' = 1 := by
  constructor
  · rintro ⟨m', hm⟩ item hmem
    obtain ⟨kvs, e1, e2, _⟩ := convertLoop_success slice m m' (by rw [hm])
    rw [e1] at hmem
    obtain ⟨p, hp, e⟩ := List.mem_map.mp hmem
    rw [← e]
    exact count_entry p (e2 p hp)
  · intro hall
    rcases convertLoop_total slice m with hm | ⟨e, he⟩
    · exact hm
    · exfalso
      have h2 := convertLoop_snd slice m
      rw [he] at h2
      have hnone : slice.find? (fun item => decide ((Split item '=').length ≠ 2)) = none := by
        rw [List.find?_eq_none]
        intro x hx
        have := hall x hx
        simp [Split_length, this]
      rw [hnone] at h2
      simp at h2

/-- C8: convertSliceToMap succeeds exactly when every entry of the slice holds exactly one
separator, and returns an error with a nil map exactly when some entry holds none or at
least two. -/
theorem convertSliceToMap_succeeds_iff (slice : List GoString) :
    ((∃ m, convertSliceToMap slice = (some m, none)) ↔
      ∀ item ∈ slice, item.count '=' = 1) ∧
    ((∃ e, convertSliceToMap slice = (none, some e)) ↔
      ∃ item ∈ slice, item.count '=' ≠ 1) := by
  have key := convertLoop_succeeds_iff slice []
  refine ⟨key, ?_⟩
  constructor
  · rintro ⟨e, he⟩
    by_contra hcon
    push_neg at hcon
    obtain ⟨m, hm⟩ := key.mpr hcon
    have : convertSliceToMap slice = (some m, none) := hm
    rw [he] at this
    simp at this
  · rintro ⟨item, hmem, hne⟩
    rcases convertLoop_total slice [] with ⟨m, hm⟩ | he
    · exact absurd (key.mp ⟨m, hm⟩ item hmem) hne
    · exact he

theorem convertSliceToMap_succeeds_iff_witness :
    ∃ e, convertSliceToMap ["k=v".toList, "a=b=c".toList] = (none, some e) :=
  (convertSliceToMap_succeeds_iff ["k=v".toList, "a=b=c".toList]).2.mpr
    ⟨"a=b=c".toList, by decide, by decide⟩

/-- C9: on well-formed entries, repeated keys included, convertSliceToMap succeeds; the
returned map holds every key once, binds it to the value of the last entry carrying it, and
has as many keys as the entries have distinct keys. -/
theorem convertSliceToMap_last_wins (kvs : List (GoString × GoString))
    (hwf : ∀ p ∈ kvs, '=' ∉ p.1 ∧ '=' ∉ p.2) :
    ∃ m : GoMap, convertSliceToMap (kvs.map entry) = (some m, none) ∧
      (∀ pre post k v, kvs = pre ++ (k, v) :: post → k ∉ post.map Prod.fst →
        m.get k = some v) ∧
      (∀ k, k ∈ m.keys ↔ k ∈ kvs.map Prod.fst) ∧
      m.keys.Nodup ∧ m.len = (kvs.map Prod.fst).dedup.length := by
  have hk : ∀ k, k ∈ (assignAll [] kvs).keys ↔ k ∈ kvs.map Prod.fst := by
    intro k
    rw [assignAll_mem_keys]
    simp [GoMap.keys]
  have hn : (assignAll [] kvs).keys.Nodup :=
    assignAll_keys_nodup kvs [] (by simp [GoMap.keys])
  refine ⟨assignAll [] kvs, convertLoop_entries kvs [] hwf, ?_, hk, hn,
    keys_length_eq _ _ hn hk⟩
  intro pre post k v e hnot
  rw [e]
  exact assignAll_get_last [] pre post k v hnot

theorem convertSliceToMap_last_wins_witness :
    ∃ m : GoMap,
      convertSliceToMap
        ([("a".toList, "1".toList), ("b".toList, "2".toList), ("a".toList, "3".toList)].map
          entry) = (some m, none) ∧
      (∀ pre post k v,
        [("a".toList, "1".toList), ("b".toList, "2".toList), ("a".toList, "3".toList)] =
          pre ++ (k, v) :: post → k ∉ post.map Prod.fst → m.get k = some v) ∧
      (∀ k, k ∈ m.keys ↔
        k ∈ [("a".toList, "1".toList), ("b".toList, "2".toList),
          ("a".toList, "3".toList)].map Prod.fst) ∧
      m.keys.Nodup ∧
      m.len = ([("a".toList, "1".toList), ("b".toList, "2".toList),
        ("a".toList, "3".toList)].map Prod.fst).dedup.length :=
  convertSliceToMap_last_wins
    [("a".toList, "1".toList), ("b".toList, "2".toList), ("a".toList, "3".toList)]
    (by decide)

/-- C10: the error of convertSliceToMap, if any, is the text "invalid format for label: "
followed by the first entry of the slice that does not split on the separator into exactly
two parts; there is no error when no entry is such. -/
theorem convertSliceToMap_error_first (slice : List GoString) :
    (convertSliceToMap slice).2 =
      (slice.find? (fun item => decide ((Split item '=').length ≠ 2))).map
        (fun item => "invalid format for label: ".toList ++ item) :=
  convertLoop_snd slice []


/-! ## `migrateRun` -/

/-- C4: when the added node selector values fail to convert, migrateRun returns the error
of convertSliceToMap, sends no Migrate request to the client and prints nothing. -/
theorem migrateRun_conversion_error (o : Command) (env : Env) (dryRun : Bool)
    (labels : List GoString) (vmiName ns e : GoString) (rest : List GoString)
    (hcfg : env.ClientAndNamespaceFromContext = .ok ns)
    (herr : (convertSliceToMap labels).2 = some e) :
    migrateRun o env dryRun (some labels) (vmiName :: rest) = some ⟨some e, [], []⟩ := by
  unfold migrateRun
  simp only [hcfg]
  rcases hc : convertSliceToMap labels with ⟨a, b⟩
  rw [hc] at herr
  simp only at herr
  subst herr
  rfl

theorem migrateRun_conversion_error_witness :
    migrateRun ⟨"migrate".toList⟩
      ⟨.ok "default".toList, fun _ => [], fun _ _ _ => none⟩ false
      (some ["zone=a".toList, "broken".toList]) ["vm1".toList] =
      some ⟨some "invalid format for label: broken".toList, [], []⟩ :=
  migrateRun_conversion_error ⟨"migrate".toList⟩
    ⟨.ok "default".toList, fun _ => [], fun _ _ _ => none⟩ false
    ["zone=a".toList, "broken".toList] "vm1".toList "default".toList
    "invalid format for label: broken".toList [] rfl (by decide)

/-- C6: without the flag (a nil slice) migrateRun sends exactly one Migrate request whose
options carry no added node selector, and the target placement merged from an absent
addition is the workload's own placement. -/
theorem migrateRun_without_selector (o : Command) (env : Env) (dryRun : Bool)
    (vmiName ns : GoString) (rest : List GoString)
    (hcfg : env.ClientAndNamespaceFromContext = .ok ns) :
    (∃ r, migrateRun o env dryRun none (vmiName :: rest) = some r ∧
      r.calls = [⟨ns, vmiName, ⟨env.setDryRunOption dryRun, none⟩⟩] ∧
      ∀ call ∈ r.calls, call.options.AddedNodeSelector = none ∧
        ∀ base, targetPlacement base call.options.AddedNodeSelector = base) := by
  refine ⟨sendMigrate o env ns vmiName ⟨env.setDryRunOption dryRun, none⟩, ?_, ?_, ?_⟩
  · unfold migrateRun
    simp only [hcfg]
  · unfold sendMigrate
    split <;> rfl
  · intro call hcall
    have hc : call = ⟨ns, vmiName, ⟨env.setDryRunOption dryRun, none⟩⟩ := by
      unfold sendMigrate at hcall
      split at hcall <;> simpa using hcall
    subst hc
    exact ⟨rfl, fun _ => rfl⟩

theorem migrateRun_without_selector_witness :
    ∃ r, migrateRun ⟨"migrate".toList⟩
        ⟨.ok "default".toList, fun _ => [], fun _ _ _ => none⟩ false none ["vm1".toList] =
          some r ∧
      r.calls = [⟨"default".toList, "vm1".toList,
        ⟨(fun _ => ([] : List GoString)) false, none⟩⟩] ∧
      ∀ call ∈ r.calls, call.options.AddedNodeSelector = none ∧
        ∀ base, targetPlacement base call.options.AddedNodeSelector = base :=
  migrateRun_without_selector ⟨"migrate".toList⟩
    ⟨.ok "default".toList, fun _ => [], fun _ _ _ => none⟩ false "vm1".toList
    "default".toList [] rfl

/-! ## The constraint merger -/

theorem merge_fold_get (base : GoMap) (addition : GoMap) (hn : addition.keys.Nodup)
    (result : GoMap) (k : GoString) :
    (addition.foldl
      (fun result kv => if (base.get kv.1).isSome then result else result.set kv.1 kv.2)
      result).get k =
      if (base.get k).isSome then result.get k
      else (match addition.get k with
        | some v => some v
        | none => result.get k) := by
  induction addition generalizing result with
  | nil => simp [GoMap.get]
  | cons p rest ih =>
    obtain ⟨a, b⟩ := p
    have hn' : a ∉ GoMap.keys rest ∧ (GoMap.keys rest).Nodup := by
      simpa [GoMap.keys] using hn
    rw [List.foldl_cons, ih hn'.2]
    by_cases hk : (base.get k).isSome = true
    · simp only [hk, if_true]
      by_cases ha : (base.get a).isSome = true
      · simp [ha]
      · have hne : ¬ a = k := fun e => ha (e ▸ hk)
        simp [ha, GoMap.get_set, hne]
    · simp only [hk]
      by_cases hak : a = k
      · subst hak
        have hr : GoMap.get rest a = none := by
          have := (GoMap.mem_keys_iff rest a).not.mp hn'.1
          simpa using this
        simp [hk, hr, GoMap.get, GoMap.get_set]
      · by_cases ha : (base.get a).isSome = true
        · simp [ha, GoMap.get, hak]
        · simp [ha, GoMap.get, hak, GoMap.get_set]

theorem merge_get (base addition : GoMap) (hn : addition.keys.Nodup) (k : GoString) :
    (merge base addition).get k =
      match base.get k with
      | some v => some v
      | none => addition.get k := by
  unfold merge
  rw [merge_fold_get base addition hn base k]
  cases hb : base.get k with
  | none =>
    simp only [Option.isSome_none, Bool.false_eq_true, if_false]
    cases addition.get k <;> simp
  | some v => simp

theorem merge_fold_nodup (base : GoMap) (addition : GoMap) (result : GoMap)
    (hr : result.keys.Nodup) :
    (addition.foldl
      (fun result kv => if (base.get kv.1).isSome then result else result.set kv.1 kv.2)
      result).keys.Nodup := by
  induction addition generalizing result with
  | nil => simpa using hr
  | cons p rest ih =>
    rw [List.foldl_cons]
    apply ih
    split
    · exact hr
    · exact GoMap.keys_nodup_set _ _ _ hr

/-- C5: for maps base and addition, merge(base, addition) has exactly the keys of base and
of addition (each once), binds every key of base to its base value, and every key only in
addition to its added value; the example of the specification evaluates as stated. -/
theorem merge_base_wins (base addition : GoMap) (hb : base.keys.Nodup)
    (ha : addition.keys.Nodup) :
    (∀ k, k ∈ (merge base addition).keys ↔ k ∈ base.keys ∨ k ∈ addition.keys) ∧
    (merge base addition).keys.Nodup ∧
    (∀ k v, base.get k = some v → (merge base addition).get k = some v) ∧
    (∀ k, base.get k = none → (merge base addition).get k = addition.get k) ∧
    merge [("zone".toList, "vmi".toList)]
        [("zone".toList, "migration".toList), ("team".toList, "migration".toList)] =
      [("zone".toList, "vmi".toList), ("team".toList, "migration".toList)] := by
  refine ⟨?_, merge_fold_nodup base addition base hb, ?_, ?_, by decide⟩
  · intro k
    rw [GoMap.mem_keys_iff, GoMap.mem_keys_iff, GoMap.mem_keys_iff, merge_get base addition ha]
    cases base.get k <;> simp
  · intro k v h
    rw [merge_get base addition ha, h]
  · intro k h
    rw [merge_get base addition ha, h]

theorem merge_base_wins_witness :
    (∀ k, k ∈ (merge [("zone".toList, "vmi".toList)]
        [("zone".toList, "migration".toList), ("team".toList, "migration".toList)]).keys ↔
      k ∈ GoMap.keys [("zone".toList, "vmi".toList)] ∨
      k ∈ GoMap.keys
        [("zone".toList, "migration".toList), ("team".toList, "migration".toList)]) ∧
    (merge [("zone".toList, "vmi".toList)]
        [("zone".toList, "migration".toList), ("team".toList, "migration".toList)]).keys.Nodup ∧
    (∀ k v, GoMap.get [("zone".toList, "vmi".toList)] k = some v →
      (merge [("zone".toList, "vmi".toList)]
        [("zone".toList, "migration".toList), ("team".toList, "migration".toList)]).get k =
        some v) ∧
    (∀ k, GoMap.get [("zone".toList, "vmi".toList)] k = none →
      (merge [("zone".toList, "vmi".toList)]
        [("zone".toList, "migration".toList), ("team".toList, "migration".toList)]).get k =
      GoMap.get
        [("zone".toList, "migration".toList), ("team".toList, "migration".toList)] k) ∧
    merge [("zone".toList, "vmi".toList)]
        [("zone".toList, "migration".toList), ("team".toList, "migration".toList)] =
      [("zone".toList, "vmi".toList), ("team".toList, "migration".toList)] :=
  merge_base_wins [("zone".toList, "vmi".toList)]
    [("zone".toList, "migration".toList), ("team".toList, "migration".toList)]
    (by decide) (by decide)

/-! ## The migration lifecycle -/

set_option linter.unnecessarySeqFocus false in
theorem step_placement (s : System) (ev : Event) :
    (step s ev).workload.placement = s.workload.placement := by
  obtain ⟨w, req⟩ := s
  cases req with
  | none => cases ev <;> simp [step] <;> split <;> rfl
  | some r =>
    obtain ⟨a, ph, fr, tg, tn⟩ := r
    cases ev <;> cases ph <;> simp [step, Phase.terminal] <;> (try split) <;> rfl

set_option linter.unnecessarySeqFocus false in
theorem step_targetInvariant (s : System) (ev : Event)
    (h : targetInvariant s.workload.placement s) :
    targetInvariant s.workload.placement (step s ev) := by
  obtain ⟨w, req⟩ := s
  cases req with
  | none =>
    cases ev <;> simp [step, targetInvariant] <;> split <;> simp [Phase.terminal]
  | some r =>
    obtain ⟨a, ph, fr, tg, tn⟩ := r
    have h1 := h _ rfl
    simp only at h1
    cases ev <;> cases ph <;>
      simp [step, targetInvariant, Phase.terminal, MigrationRequest.fail,
        MigrationRequest.enter] at h1 ⊢ <;>
      first
        | exact h1
        | (split <;> simp [Phase.terminal] <;> exact h1)

theorem run_placement (events : List Event) (s : System) :
    (run s events).workload.placement = s.workload.placement := by
  induction events generalizing s with
  | nil => rfl
  | cons ev rest ih =>
    show (run (step s ev) rest).workload.placement = s.workload.placement
    rw [ih, step_placement]

theorem run_targetInvariant (events : List Event) (s : System)
    (h : targetInvariant s.workload.placement s) :
    targetInvariant s.workload.placement (run s events) := by
  induction events generalizing s with
  | nil => exact h
  | cons ev rest ih =>
    show targetInvariant s.workload.placement (run (step s ev) rest)
    have h1 := step_targetInvariant s ev h
    rw [← step_placement s ev] at h1 ⊢
    exact ih _ h1

/-- The end-to-end scenario: the target context carries `zone=vmi, team=migration` while
the migration is scheduled; the successful run ends `Succeeded` on node B, the timed-out
run ends `Failed` on node A, both without a target context. -/
theorem scenario_runs :
    (run ⟨scenarioWorkload, none⟩ (scenarioSuccess.take 3)).request.bind (fun r => r.target) =
      some [("zone".toList, "vmi".toList), ("team".toList, "migration".toList)] ∧
    run ⟨scenarioWorkload, none⟩ scenarioSuccess =
      ⟨⟨"vmi".toList, [("zone".toList, "vmi".toList)], "B".toList⟩,
        some ⟨some scenarioAddition, .Succeeded, none, none, none⟩⟩ ∧
    run ⟨scenarioWorkload, none⟩ scenarioTimeout =
      ⟨scenarioWorkload,
        some ⟨some scenarioAddition, .Failed, some "scheduling timeout".toList, none, none⟩⟩ := by
  decide

/-- C7: whatever events a workload's migrations go through (submissions with any added
placement, success, failure), its persistent placement map stays what it was; from a state
without a request, the added keys live only on the target context, which carries the merge
while it exists and is gone once the request is terminal. -/
theorem no_persistence_leak (s : System) (events : List Event) :
    (run s events).workload.placement = s.workload.placement ∧
    (s.request = none → targetInvariant s.workload.placement (run s events)) := by
  refine ⟨run_placement events s, fun h => run_targetInvariant events s ?_⟩
  intro r hr
  rw [h] at hr
  exact absurd hr (by simp)

theorem no_persistence_leak_witness :
    (run ⟨scenarioWorkload, none⟩ scenarioSuccess).workload.placement =
      [("zone".toList, "vmi".toList)] ∧
    targetInvariant [("zone".toList, "vmi".toList)]
      (run ⟨scenarioWorkload, none⟩ scenarioSuccess) :=
  ⟨(no_persistence_leak ⟨scenarioWorkload, none⟩ scenarioSuccess).1,
    (no_persistence_leak ⟨scenarioWorkload, none⟩ scenarioSuccess).2 rfl⟩

end Migrate
